import Mathlib

/-!
Verification of the advanced-vector repository (`src/advanced-vector/vector.h`):
a raw-memory buffer manager (`RawMemory`) plus a dynamic array (`Vector`)
built on top of it.  The C++ code is shallowly embedded below: pointers are
modelled as `Option Nat` (with `none` playing the role of `nullptr`),
raw buffers as lists of slots that are either uninitialized, live with a value,
or in a moved-from state, and element types whose copy constructor may throw
as functions `α → Option α` (`none` = the copy threw).
-/

namespace AdvancedVector

/-! ## RawMemory (vector.h, lines 10-88)

`RawMemory<T>` holds a pointer `buffer_` and a count `capacity_`.  Only the
two fields are relevant to the ownership-transfer claims, so the model keeps
exactly those: the pointer as `Option Nat` (allocation id, `none` = null). -/

structure RawMemoryM where
  buffer : Option Nat
  capacity : Nat
deriving DecidableEq, Repr

/-- `RawMemory(RawMemory&& other)` (vector.h lines 24-27):
`buffer_(std::exchange(other.buffer_, nullptr)), capacity_(std::exchange(other.capacity_, 0u))`.
Returns (the newly constructed object, the moved-from source). -/
def RawMemoryM.moveCtor (other : RawMemoryM) : RawMemoryM × RawMemoryM :=
  (⟨other.buffer, other.capacity⟩, ⟨none, 0⟩)

/-- `operator=(RawMemory&& other)` (vector.h lines 29-32):
`buffer_ = std::exchange(other.buffer_, nullptr); capacity_ = other.capacity_;`
— note the source's `capacity_` is read but never reset.
Returns (the assigned-to object, the moved-from source). -/
def RawMemoryM.moveAssign (_dst other : RawMemoryM) : RawMemoryM × RawMemoryM :=
  (⟨other.buffer, other.capacity⟩, ⟨none, other.capacity⟩)

/-! ## Element-type traits and the relocation strategy (C1)

The code decides move-vs-copy relocation with
`std::is_nothrow_move_constructible_v<T> || !std::is_copy_constructible_v<T>`,
written out three times (Reserve line 170, EmplaceBack line 229, Emplace
line 259).  Each occurrence is transcribed separately, and the spec's wording
gets its own definition so that agreement is a theorem, not a definition. -/

structure Traits where
  nothrowMoveCtor : Bool
  copyConstructible : Bool
deriving DecidableEq, Repr

/-- Reserve, vector.h line 170. -/
def reserveRelocatesByMove (tr : Traits) : Bool :=
  tr.nothrowMoveCtor || !tr.copyConstructible

/-- EmplaceBack growth path, vector.h line 229. -/
def emplaceBackRelocatesByMove (tr : Traits) : Bool :=
  tr.nothrowMoveCtor || !tr.copyConstructible

/-- Emplace growth path, vector.h line 259. -/
def emplaceRelocatesByMove (tr : Traits) : Bool :=
  tr.nothrowMoveCtor || !tr.copyConstructible

/-- Modelled from the spec: "relocate by move when the element type's move
operation is guaranteed not to fail, or when the element type cannot be copied
at all (move is then the only option); otherwise relocate by copy". -/
def specRelocatesByMove (tr : Traits) : Bool :=
  tr.nothrowMoveCtor || !tr.copyConstructible

/-! ## Slots of a raw buffer

A slot of the raw storage is uninitialized (`raw`), holds a constructed
element (`live a`), or holds a constructed element that has been moved from
(`moved`).  Moved-from objects are still constructed: their destructor must
eventually run. -/

inductive Slot (α : Type) where
  | raw : Slot α
  | live (a : α) : Slot α
  | moved : Slot α
deriving DecidableEq, Repr

/-- `std::uninitialized_copy_n` over the `n` live source elements, with a
copy constructor that may throw (`copyFn a = none`).  On success the list of
constructed values is returned; on a throw the algorithm destroys the
elements it already constructed and the exception propagates (`none`). -/
def uninitCopyList (copyFn : α → Option α) : List α → Option (List α)
  | [] => some []
  | a :: as =>
    match copyFn a with
    | none => none
    | some b => (uninitCopyList copyFn as).map (b :: ·)

/-- The relocation step shared by the three growth sites
(vector.h lines 170-176, 229-234, 259-265): `uninitialized_move_n` when
`useMove`, else `uninitialized_copy_n`.  Returns the state of the source
slots once the new storage is fully populated (i.e. just before
`destroy_n`/`Swap`), and the contents of the new storage (`none` when a copy
threw).  Moving leaves every source slot in the moved-from state; copying
reads the sources without modifying them. -/
def relocateSlots (useMove : Bool) (copyFn : α → Option α) (src : List α) :
    List (Slot α) × Option (List α) :=
  if useMove then
    (src.map fun _ => Slot.moved, some src)
  else
    (src.map Slot.live, uninitCopyList copyFn src)

/-! ## Growth with an allocation/construction ledger (C2)

To check the exception-safety and no-leak claims the growth paths are modelled
with an explicit ledger: which raw blocks are currently allocated, and how many
element constructors/destructors ran during the operation.  A vector here is
its block id, its capacity and its live element values. -/

structure VecH (α : Type) where
  block : Option Nat
  cap : Nat
  elems : List α
deriving DecidableEq, Repr

structure Heap where
  next : Nat
  blocks : List Nat
deriving DecidableEq, Repr

/-- `std::uninitialized_copy_n` with construction/destruction counting:
returns (result, constructor invocations, destructor invocations).  On a
throw the algorithm destroys exactly the elements it constructed itself. -/
def uninitCopyListC (copyFn : α → Option α) : List α → Option (List α) × Nat × Nat
  | [] => (some [], 0, 0)
  | a :: as =>
    match copyFn a with
    | none => (none, 0, 0)
    | some b =>
      match uninitCopyListC copyFn as with
      | (some bs, c, d) => (some (b :: bs), c + 1, d)
      | (none, c, d) => (none, c + 1, d + 1)

/-- Deallocation performed by `~RawMemory` for the buffer a vector owns. -/
def freeBlock (blocks : List Nat) : Option Nat → List Nat
  | none => blocks
  | some b => blocks.erase b

/-- The growth branch of `EmplaceBack` (vector.h lines 227-238):
`RawMemory<T> new_data(size_ == 0 ? 1 : size_ * 2); new (new_data + size_)
T(args...);` then move- or copy-relocation, `data_.Swap(new_data)` and
`destroy_n`.  `mkElem = none` models the element constructor throwing,
`copyFn` a copy constructor that may throw; the move path is modelled as
non-failing (it is taken when the move constructor is noexcept, or when
moving is the only option — the claims below only concern failures of the
element constructor and of copy relocation).

Result: `Except` (state observable after the exception) (state after normal
return), paired with the operation's constructor and destructor counts. -/
def emplaceBackGrow (tr : Traits) (mkElem : Option α) (copyFn : α → Option α)
    (v : VecH α) (h : Heap) :
    Except (VecH α × Heap) (VecH α × Heap) × Nat × Nat :=
  let n := v.elems.length
  let newCap := if n = 0 then 1 else n * 2
  let b := h.next
  let h1 : Heap := ⟨h.next + 1, b :: h.blocks⟩
  match mkElem with
  | none =>
    -- the placement-new threw: `~RawMemory` frees the new block, `data_`
    -- was never touched, the exception propagates
    (.error (v, ⟨h1.next, h1.blocks.erase b⟩), 0, 0)
  | some x =>
    if emplaceBackRelocatesByMove tr then
      -- uninitialized_move_n (n move constructions), Swap, destroy_n of the
      -- n moved-from originals, ~RawMemory frees the old block
      (.ok (⟨some b, newCap, v.elems ++ [x]⟩,
            ⟨h1.next, b :: freeBlock h.blocks v.block⟩),
       1 + n, n)
    else
      match uninitCopyListC copyFn v.elems with
      | (some copied, c, d) =>
        (.ok (⟨some b, newCap, copied ++ [x]⟩,
              ⟨h1.next, b :: freeBlock h.blocks v.block⟩),
         1 + c, d + n)
      | (none, c, d) =>
        -- a copy threw: uninitialized_copy_n destroyed the c elements it had
        -- constructed, but nothing destroys the element the placement-new
        -- built at offset size_; `~RawMemory` then frees the raw block b
        (.error (v, ⟨h1.next, h1.blocks.erase b⟩), 1 + c, d)

/-- `Reserve(new_capacity)` (vector.h lines 165-178) with the same ledger. -/
def reserveGrow (tr : Traits) (copyFn : α → Option α)
    (v : VecH α) (h : Heap) (newCapacity : Nat) :
    Except (VecH α × Heap) (VecH α × Heap) × Nat × Nat :=
  if newCapacity ≤ v.cap then
    (.ok (v, h), 0, 0)
  else
    let n := v.elems.length
    let b := h.next
    let h1 : Heap := ⟨h.next + 1, b :: h.blocks⟩
    if reserveRelocatesByMove tr then
      (.ok (⟨some b, newCapacity, v.elems⟩,
            ⟨h1.next, b :: freeBlock h.blocks v.block⟩),
       n, n)
    else
      match uninitCopyListC copyFn v.elems with
      | (some copied, c, d) =>
        (.ok (⟨some b, newCapacity, copied⟩,
              ⟨h1.next, b :: freeBlock h.blocks v.block⟩),
         c, d + n)
      | (none, c, d) =>
        (.error (v, ⟨h1.next, h1.blocks.erase b⟩), c, d)

/-! ## Value-level vector model

For the claims about sizes, capacities and element sequences the vector is
its capacity plus the list of live element values. -/

structure VecL (α : Type) where
  cap : Nat
  elems : List α
deriving DecidableEq, Repr

def VecL.size (v : VecL α) : Nat := v.elems.length

/-- The default-constructed `Vector()`: capacity 0, no elements. -/
def VecL.nil : VecL α := ⟨0, []⟩

/-- `T& EmplaceBack(Args&&...)` (vector.h lines 222-241) at value level.
Both branches construct the new element at offset `size_` (in place, or in
the grown buffer before relocation); `++size_; return data_[size_ - 1u];`
is modelled by also returning the index of the returned reference. -/
def emplaceBackL (v : VecL α) (x : α) : VecL α × Nat :=
  if v.size < v.cap then
    (⟨v.cap, v.elems ++ [x]⟩, v.size + 1 - 1)
  else
    (⟨if v.size = 0 then 1 else v.size * 2, v.elems ++ [x]⟩, v.size + 1 - 1)

/-- `void PushBack(const T&)` / `void PushBack(T&&)` (vector.h lines 193-199):
both delegate to `EmplaceBack` and discard its returned reference. -/
def pushBackL (v : VecL α) (x : α) : VecL α :=
  (emplaceBackL v x).1

/-- The state after `k` consecutive `PushBack`s of `vals 0, …, vals (k-1)`
on a default-constructed vector. -/
def appendSeq (vals : Nat → α) : Nat → VecL α
  | 0 => VecL.nil
  | k + 1 => pushBackL (appendSeq vals k) (vals k)

/-- Modelled from the spec: the sequence "1, 2, 4, 8, ... (repeated doubling
from 1)". -/
def doubledFrom1 : Nat → Nat
  | 0 => 1
  | i + 1 => 2 * doubledFrom1 i

/-! ## The spare-capacity branch of `Emplace` (vector.h lines 250-254)

The code performs, for `pos_index < size_ < Capacity()`:
```
new (data_ + size_) T(std::move(data_[size_ - 1u]));
std::move_backward(begin() + pos_index, std::prev(end()), end());
data_[pos_index] = T(std::forward<Args>(args)...);
```
`move_backward` is reproduced assignment by assignment. -/

/-- `std::move_backward(first = p, last = p + c, d_last = p + c + 1)` on the
buffer `l`: performs `l[i] := l[i-1]` for `i = p+c, p+c-1, …, p+1`, in that
order (each assignment reads the original value: reads happen strictly below
all earlier writes). -/
def moveBackwardN (d : α) (l : List α) (p : Nat) : Nat → List α
  | 0 => l
  | c + 1 => moveBackwardN d (l.set (p + c + 1) (l.getD (p + c) d)) p c

/-- The spare-capacity branch of `Emplace` at value level: the buffer region
`[0, size_]` before (`elems` of length `n`, plus the one-past-end slot written
by the placement-new) and after the three statements quoted above. -/
def emplaceSpareL (d : α) (elems : List α) (p : Nat) (x : α) : List α :=
  -- new (data_ + size_) T(std::move(data_[size_ - 1u]))
  let b1 := elems ++ [elems.getD (elems.length - 1) d]
  -- std::move_backward(begin() + pos_index, std::prev(end()), end()):
  -- size_ - 1 - pos_index assignments, slots pos_index+1 … size_-1
  let b2 := moveBackwardN d b1 p (elems.length - 1 - p)
  -- data_[pos_index] = T(args...)
  b2.set p x

/-- `iterator Emplace(const_iterator pos, Args&&...)` (vector.h lines
243-271) at value level, for an insertion offset `p ≤ size`:
`pos == cend()` delegates to `EmplaceBack`; with spare capacity the
shift-right branch above runs; otherwise a doubled buffer is filled with the
new element at offset `p` and the old elements relocated around it. -/
def emplaceL (d : α) (v : VecL α) (p : Nat) (x : α) : VecL α :=
  if p = v.size then
    (emplaceBackL v x).1
  else if v.size < v.cap then
    ⟨v.cap, emplaceSpareL d v.elems p x⟩
  else
    -- new (new_data + pos_index) T(args...); relocate [0,p) to [0,p) and
    -- [p, size) to [p+1, size+1); swap; destroy_n
    ⟨if v.size = 0 then 1 else v.size * 2,
     v.elems.take p ++ x :: v.elems.drop p⟩

/-- `iterator Erase(const_iterator pos)` (vector.h lines 209-220) at value
level: `destroy_at(begin() + pos_index)`, shift `[pos+1, size)` one slot left
(`std::move` or `std::copy` — same values either way), `--size_`. -/
def eraseL (v : VecL α) (p : Nat) : VecL α :=
  ⟨v.cap, v.elems.take p ++ v.elems.drop (p + 1)⟩

/-! ## Operation counting (C4, C9)

Counts of the special member functions of `T` invoked by an operation, for
the claims that describe which of them an operation uses. -/

structure OpCount where
  copyCtor : Nat
  moveCtor : Nat
  copyAssign : Nat
  moveAssign : Nat
  otherCtor : Nat
  dtor : Nat
deriving DecidableEq, Repr

def OpCount.zero : OpCount := ⟨0, 0, 0, 0, 0, 0⟩

/-- The special member functions of `T` invoked by the spare-capacity branch
of `Emplace` (vector.h lines 250-253) on a vector of size `n`, inserting at
offset `p < n`, for a `T` that does/doesn't provide move operations
(`std::move` binds to the copy operation when `T` has no move operation):
* `new (data_ + size_) T(std::move(data_[size_ - 1u]))` — one move
  construction (copy construction for a copy-only `T`); no trait test;
* `std::move_backward` — `n - 1 - p` move assignments (copy assignments for
  a copy-only `T`); no trait test;
* `data_[pos_index] = T(args...)` — one constructor call for the temporary,
  one move assignment from it, one destructor call for the temporary. -/
def emplaceSpareOps (hasMoveCtor hasMoveAssign : Bool) (n p : Nat) : OpCount :=
  { copyCtor := if hasMoveCtor then 0 else 1,
    moveCtor := if hasMoveCtor then 1 else 0,
    copyAssign := if hasMoveAssign then 0 else (n - 1 - p) + 1,
    moveAssign := if hasMoveAssign then (n - 1 - p) + 1 else 0,
    otherCtor := 1,
    dtor := 1 }

/-- Modelled from the spec sentence behind claim C4: "constructs a copy of
the current last element into the one-past-end slot" (at least one copy
construction) and "shifts elements in `[position, end)` one slot to the right
(moving if safe, else copying)" (for a type whose move is not "safe", the
shift copies: no move assignments). -/
def claimC4Prediction (tr : Traits) (oc : OpCount) : Prop :=
  1 ≤ oc.copyCtor ∧ (specRelocatesByMove tr = false → oc.moveAssign = 0)

/-- `operator=(const Vector& other)` (vector.h lines 140-158) with operation
counting.  `sameObject` models the `this != &other` test. -/
def copyAssignL (sameObject : Bool) (dst src : VecL α) : VecL α × OpCount :=
  if sameObject then
    (dst, OpCount.zero)
  else if dst.cap < src.size then
    -- Vector tmp(other); Swap(tmp): other.size_ copy constructions, and the
    -- temporary's destructor destroys this's old elements
    (⟨src.size, src.elems⟩,
     { OpCount.zero with copyCtor := src.size, dtor := dst.size })
  else
    -- copy_n over the common length, then destroy the excess tail or
    -- uninitialized-copy the missing tail; size_ = other.size_
    (⟨dst.cap, src.elems⟩,
     { OpCount.zero with
        copyAssign := min dst.size src.size,
        dtor := dst.size - src.size,
        copyCtor := src.size - dst.size })

/-! ## Slot-level vector model (C7)

For the liveness invariant the buffer contents are tracked slot by slot. -/

structure VecS (α : Type) where
  data : List (Slot α)
  size : Nat
deriving DecidableEq, Repr

def VecS.capacity (v : VecS α) : Nat := v.data.length

def slotVal (d : α) : Slot α → α
  | .live a => a
  | .moved => d
  | .raw => d

/-- The values of the live prefix `[0, size)`. -/
def VecS.values (d : α) (v : VecS α) : List α :=
  (v.data.take v.size).map (slotVal d)

/-- `EmplaceBack` (vector.h lines 222-241) at slot level, for a `T` that
relocates by move.  With spare capacity the element is constructed into slot
`size_`; otherwise the grown buffer ends up holding the relocated elements,
the new element at offset `size_`, and raw storage above, while the old
buffer is destroyed and freed. -/
def emplaceBackS (d : α) (v : VecS α) (x : α) : VecS α :=
  if v.size < v.capacity then
    ⟨v.data.set v.size (Slot.live x), v.size + 1⟩
  else
    ⟨((v.values d).map Slot.live) ++ Slot.live x ::
       List.replicate ((if v.size = 0 then 1 else v.size * 2) - (v.size + 1)) Slot.raw,
     v.size + 1⟩

/-- One pass of `std::move(first = p+1, last = p+1+c, d_first = p)` at slot
level: `l[i-1] := live (value of l[i]); l[i] := moved` for `i = p+1, …, p+c`,
in that order (move assignment transfers the value and leaves the source
constructed but moved-from). -/
def moveLeftN (d : α) (l : List (Slot α)) (p : Nat) : Nat → List (Slot α)
  | 0 => l
  | c + 1 =>
    moveLeftN d
      ((l.set p (Slot.live (slotVal d (l.getD (p + 1) Slot.raw)))).set (p + 1) Slot.moved)
      (p + 1) c

/-- `Erase(pos)` (vector.h lines 209-220) at slot level (move branch):
`std::destroy_at(begin() + pos_index)`, then
`std::move(begin() + pos_index + 1, end(), begin() + pos_index)`, then
`--size_`.  Nothing destroys the (moved-from) object left in slot
`size_ - 1`. -/
def eraseS (d : α) (v : VecS α) (p : Nat) : VecS α :=
  let b1 := v.data.set p Slot.raw
  let b2 := moveLeftN d b1 p (v.size - 1 - p)
  ⟨b2, v.size - 1⟩

/-! ## Iterators (C10)

`begin()`/`end()`/`cbegin()`/`cend()` (vector.h lines 95-118) return raw
pointers; a pointer is `none` (null) or an address. -/

def beginIt (base : Option Nat) : Option Nat :=
  base

/-- `end()`: `if (size_ == 0u) return begin(); return data_ + size_;` -/
def endIt (base : Option Nat) (size : Nat) : Option Nat :=
  if size = 0 then beginIt base else base.map (· + size)

def cbeginIt (base : Option Nat) : Option Nat :=
  beginIt base

def cendIt (base : Option Nat) (size : Nat) : Option Nat :=
  endIt base size

/-! ## Helper lemmas -/

theorem uninitCopyList_length (copyFn : α → Option α) :
    ∀ (src out : List α), uninitCopyList copyFn src = some out → out.length = src.length := by
  intro src
  induction src with
  | nil => intro out h; simp [uninitCopyList] at h; simp [← h]
  | cons a as ih =>
    intro out h
    simp only [uninitCopyList] at h
    cases hc : copyFn a with
    | none => rw [hc] at h; exact absurd h (by simp)
    | some b =>
      rw [hc] at h
      cases hr : uninitCopyList copyFn as with
      | none => rw [hr] at h; exact absurd h (by simp)
      | some bs =>
        rw [hr] at h
        simp only [Option.map_some', Option.some.injEq] at h
        subst h
        simp [ih bs hr]

theorem doubledFrom1_eq_pow : ∀ i, doubledFrom1 i = 2 ^ i := by
  intro i
  induction i with
  | zero => rfl
  | succ i ih => simp [doubledFrom1, ih, Nat.pow_succ]; ring

theorem appendSeq_size (vals : Nat → α) : ∀ k, (appendSeq vals k).size = k := by
  intro k
  induction k with
  | zero => rfl
  | succ k ih =>
    have key : (appendSeq vals (k + 1)).elems = (appendSeq vals k).elems ++ [vals k] := by
      show (pushBackL (appendSeq vals k) (vals k)).elems = _
      by_cases h : (appendSeq vals k).size < (appendSeq vals k).cap <;>
        simp [pushBackL, emplaceBackL, h]
    simp only [VecL.size] at ih ⊢
    rw [key, List.length_append, ih]
    simp

theorem appendSeq_cap_step (vals : Nat → α) (k : Nat) :
    (appendSeq vals (k + 1)).cap =
      if k < (appendSeq vals k).cap then (appendSeq vals k).cap
      else if k = 0 then 1 else k * 2 := by
  have hs := appendSeq_size vals k
  by_cases h : k < (appendSeq vals k).cap
  · rw [if_pos h]
    have h' : (appendSeq vals k).size < (appendSeq vals k).cap := by rw [hs]; exact h
    simp [appendSeq, pushBackL, emplaceBackL, if_pos h']
  · rw [if_neg h]
    have h' : ¬ (appendSeq vals k).size < (appendSeq vals k).cap := by rw [hs]; exact h
    show (pushBackL (appendSeq vals k) (vals k)).cap = _
    simp only [pushBackL, emplaceBackL, if_neg h']
    simp [hs]

/-- The capacity after `k ≥ 1` appends is a doubling value, is at least `k`,
and is below `2 * k`. -/
theorem appendSeq_cap_bounds (vals : Nat → α) :
    ∀ k, 1 ≤ k →
      k ≤ (appendSeq vals k).cap ∧ (appendSeq vals k).cap < 2 * k ∧
      ∃ i, (appendSeq vals k).cap = doubledFrom1 i := by
  intro k
  induction k with
  | zero => omega
  | succ k ih =>
    intro _
    by_cases hk : k = 0
    · subst hk
      have hc : (appendSeq vals 1).cap = 1 := rfl
      rw [hc]
      exact ⟨by omega, by omega, 0, rfl⟩
    · obtain ⟨h1, h2, i, h3⟩ := ih (by omega)
      rw [appendSeq_cap_step]
      by_cases hfull : k < (appendSeq vals k).cap
      · rw [if_pos hfull]
        exact ⟨by omega, by omega, i, h3⟩
      · have hek : (appendSeq vals k).cap = k := by omega
        rw [if_neg hfull, if_neg hk]
        refine ⟨by omega, by omega, i + 1, ?_⟩
        have : doubledFrom1 (i + 1) = 2 * doubledFrom1 i := rfl
        rw [this, ← h3, hek]
        omega

/-- A doubling value `c` with `k ≤ c < 2 * k` is the least doubling value
that is at least `k`. -/
theorem least_doubling {c k : Nat} (hm : ∃ i, c = doubledFrom1 i)
    (h1 : k ≤ c) (h2 : c < 2 * k) :
    ∀ j, k ≤ doubledFrom1 j → c ≤ doubledFrom1 j := by
  obtain ⟨i, rfl⟩ := hm
  intro j hj
  rw [doubledFrom1_eq_pow] at h1 h2 hj ⊢
  rw [doubledFrom1_eq_pow]
  by_contra hlt
  push_neg at hlt
  have hji : j < i := (Nat.pow_lt_pow_iff_right (by omega)).mp hlt
  have hi1 : 1 ≤ i := by omega
  have hsplit : (2 : Nat) ^ i = 2 * 2 ^ (i - 1) := by
    conv_lhs => rw [show i = (i - 1) + 1 by omega]
    rw [Nat.pow_succ]; ring
  have hmono : (2 : Nat) ^ j ≤ 2 ^ (i - 1) :=
    Nat.pow_le_pow_right (by omega) (by omega)
  omega

theorem moveBackwardN_length (d : α) :
    ∀ (c : Nat) (m : List α) (p : Nat), (moveBackwardN d m p c).length = m.length := by
  intro c
  induction c with
  | zero => intro m p; rfl
  | succ c ih =>
    intro m p
    simp only [moveBackwardN]
    rw [ih]
    simp

/-- Index-by-index effect of `move_backward`: positions `p+1 … p+c` now hold
the element one slot to their left, all other positions are untouched. -/
theorem moveBackwardN_getElem? (d : α) :
    ∀ (c : Nat) (m : List α) (p : Nat), p + c < m.length →
      ∀ i, (moveBackwardN d m p c)[i]? =
        if p + 1 ≤ i ∧ i ≤ p + c then m[i - 1]? else m[i]? := by
  intro c
  induction c with
  | zero =>
    intro m p _ i
    rw [if_neg (by omega)]
    rfl
  | succ c ih =>
    intro m p hlen i
    have hlen' : p + c < (m.set (p + c + 1) (m.getD (p + c) d)).length := by
      rw [List.length_set]; omega
    simp only [moveBackwardN]
    rw [ih _ p hlen' i]
    by_cases h1 : p + 1 ≤ i ∧ i ≤ p + c
    · rw [if_pos h1, if_pos (by omega)]
      exact List.getElem?_set_ne (by omega)
    · rw [if_neg h1]
      by_cases h2 : i = p + c + 1
      · subst h2
        rw [if_pos (by omega)]
        rw [List.getElem?_set_self (by omega)]
        have hidx : p + c + 1 - 1 = p + c := by omega
        rw [hidx, List.getD_eq_getElem?_getD, List.getElem?_eq_getElem (by omega)]
        simp
      · rw [if_neg (by omega)]
        exact List.getElem?_set_ne (by omega)

/-- The three statements of the spare-capacity branch of `Emplace` produce
exactly the original sequence with `x` inserted at offset `p`. -/
theorem emplaceSpareL_eq (d : α) (l : List α) (p : Nat) (x : α)
    (hp : p < l.length) :
    emplaceSpareL d l p x = l.take p ++ x :: l.drop p := by
  apply List.ext_getElem?
  intro i
  unfold emplaceSpareL
  have hb1len : (l ++ [l.getD (l.length - 1) d]).length = l.length + 1 := by simp
  have hmblen :
      (moveBackwardN d (l ++ [l.getD (l.length - 1) d]) p (l.length - 1 - p)).length
        = l.length + 1 := by
    rw [moveBackwardN_length d _ _ p, hb1len]
  have htklen : (l.take p).length = p := by
    rw [List.length_take]; omega
  rw [List.getElem?_set]
  by_cases hip : p = i
  · subst hip
    rw [if_pos rfl, if_pos (by omega)]
    rw [List.getElem?_append_right (by omega), htklen]
    simp
  · rw [if_neg hip]
    rw [moveBackwardN_getElem? d (l.length - 1 - p) _ p (by omega) i]
    by_cases hlow : i < p
    · -- untouched region below the insertion point
      rw [if_neg (by omega)]
      rw [List.getElem?_append_left (by omega)]
      rw [List.getElem?_append_left (by omega)]
      rw [List.getElem?_take_of_lt hlow]
    · have hgt : p < i := by omega
      by_cases hhi : i ≤ l.length
      · -- shifted region: position i holds the old element i-1
        have hrhs : (l.take p ++ x :: l.drop p)[i]? = l[i - 1]? := by
          rw [List.getElem?_append_right (by omega), htklen]
          rw [show i - p = (i - p - 1) + 1 by omega, List.getElem?_cons_succ]
          rw [List.getElem?_drop]
          rw [show p + (i - p - 1) = i - 1 by omega]
        rw [hrhs]
        by_cases hend : i ≤ l.length - 1
        · rw [if_pos (by omega)]
          rw [List.getElem?_append_left (by omega)]
        · -- i = l.length: this slot was filled by the placement-new of the
          -- old last element
          have hi : i = l.length := by omega
          rw [if_neg (by omega), hi]
          rw [List.getElem?_concat_length]
          rw [List.getD_eq_getElem?_getD, List.getElem?_eq_getElem (by omega)]
          simp
      · -- beyond the new one-past-end slot: both sides are out of range
        rw [if_neg (by omega)]
        rw [List.getElem?_eq_none (by omega)]
        rw [List.getElem?_eq_none (by simp [htklen]; omega)]

/-! ## Claim theorems -/

/-- Claim C1 (confirmed): in every growth-triggered relocation (Reserve,
append growth in EmplaceBack/PushBack, insert growth in Emplace) the live
elements are relocated by move construction exactly when `T`'s move
constructor is declared not to throw or `T` is not copy-constructible
(each site's transcribed condition agrees with the spec's rule), and by copy
construction otherwise; under the copy strategy the source slots still hold
the original live elements at the moment the new storage is fully
populated. -/
theorem relocation_strategy_matches_spec (tr : Traits) (copyFn : α → Option α)
    (src : List α) :
    reserveRelocatesByMove tr = specRelocatesByMove tr ∧
    emplaceBackRelocatesByMove tr = specRelocatesByMove tr ∧
    emplaceRelocatesByMove tr = specRelocatesByMove tr ∧
    (specRelocatesByMove tr = true →
      relocateSlots (emplaceBackRelocatesByMove tr) copyFn src
        = (src.map fun _ => Slot.moved, some src)) ∧
    (specRelocatesByMove tr = false →
      (relocateSlots (emplaceBackRelocatesByMove tr) copyFn src).1 = src.map Slot.live ∧
      ∀ out, (relocateSlots (emplaceBackRelocatesByMove tr) copyFn src).2 = some out →
        out.length = src.length) := by
  refine ⟨rfl, rfl, rfl, ?_, ?_⟩
  · intro h
    have h' : emplaceBackRelocatesByMove tr = true := h
    simp [relocateSlots, h']
  · intro h
    have h' : emplaceBackRelocatesByMove tr = false := h
    constructor
    · simp [relocateSlots, h']
    · intro out hout
      simp only [relocateSlots, h', Bool.false_eq_true, if_false] at hout
      exact uninitCopyList_length copyFn src out hout

/-- Witness for C1: a copy-constructible type with a potentially-throwing
move constructor relocates by copy, and the source slots keep the original
elements. -/
theorem relocation_strategy_matches_spec_witness :
    (relocateSlots (emplaceBackRelocatesByMove ⟨false, true⟩)
        (fun a : Nat => some a) [3]).1 = [Slot.live 3] :=
  ((relocation_strategy_matches_spec ⟨false, true⟩ (fun a : Nat => some a)
      [3]).2.2.2.2 (by decide)).1

/-- Claim C2 (code bug): when a copy throws during the growth relocation of
`EmplaceBack`, the vector and the set of allocated blocks are restored
exactly (the strong-guarantee part of the claim holds), but the operation ran
one element constructor (the placement-new of the new element into the new
storage) and zero destructors: that element is never destroyed, contradicting
"the partially constructed new storage is released rather than leaked". -/
theorem emplaceBack_growth_copy_throw_leak :
    emplaceBackGrow (α := Nat) ⟨false, true⟩ (some 9) (fun _ => none)
        ⟨some 0, 1, [5]⟩ ⟨1, [0]⟩ =
      (.error (⟨some 0, 1, [5]⟩, ⟨2, [0]⟩), 1, 0) ∧
    reserveGrow (α := Nat) ⟨false, true⟩ (fun _ => none)
        ⟨some 0, 1, [5]⟩ ⟨1, [0]⟩ 2 =
      (.error (⟨some 0, 1, [5]⟩, ⟨2, [0]⟩), 0, 0) := by
  constructor <;> rfl

/-- Claim C3 (code bug): move construction of `RawMemory` transfers pointer
and capacity and leaves the source null with capacity 0, but move assignment
only nulls the source's pointer — the source's capacity is left unchanged
(here 2, not 0). -/
theorem rawMemory_move_transfer_bug :
    RawMemoryM.moveCtor ⟨some 7, 2⟩ = (⟨some 7, 2⟩, ⟨none, 0⟩) ∧
    RawMemoryM.moveAssign ⟨none, 0⟩ ⟨some 7, 2⟩ = (⟨some 7, 2⟩, ⟨none, 2⟩) ∧
    (RawMemoryM.moveAssign ⟨none, 0⟩ ⟨some 7, 2⟩).2.capacity ≠ 0 := by
  refine ⟨rfl, rfl, by decide⟩

/-- Claim C5 (confirmed): `PushBack`/`EmplaceBack` increase the size by
exactly 1, and the reference returned by `EmplaceBack` designates the element
at index `size - 1` of the new state, which holds the appended value. -/
theorem pushBack_size_and_returned_element (v : VecL α) (x : α) :
    (pushBackL v x).size = v.size + 1 ∧
    (emplaceBackL v x).1.size = v.size + 1 ∧
    (emplaceBackL v x).2 = (emplaceBackL v x).1.size - 1 ∧
    ((emplaceBackL v x).1.elems)[(emplaceBackL v x).2]? = some x := by
  have key : (emplaceBackL v x).1.elems = v.elems ++ [x] ∧
      (emplaceBackL v x).2 = v.size := by
    by_cases h : v.size < v.cap <;> simp [emplaceBackL, h]
  refine ⟨?_, ?_, ?_, ?_⟩
  · simp [pushBackL, VecL.size, key.1]
  · simp [VecL.size, key.1]
  · simp [VecL.size, key.1, key.2]
  · rw [key.1, key.2]
    exact List.getElem?_concat_length v.elems x

/-- Claim C9 (confirmed): copy-assigning a vector to itself is a no-op
(`this != &other` fails): the state is unchanged and no element is copied,
constructed or destroyed. -/
theorem self_copy_assignment_noop (v : VecL α) :
    copyAssignL true v v = (v, OpCount.zero) := rfl

/-- Claim C10 (confirmed): `begin() == end()` exactly when the size is 0
(given the representation fact that a nonempty vector has a non-null
buffer); on a default-constructed vector both are the null pointer; and
`cbegin`/`cend` return the same positions as `begin`/`end`. -/
theorem begin_end_iterators (base : Option Nat) (size : Nat)
    (h : size ≠ 0 → base.isSome) :
    (beginIt base = endIt base size ↔ size = 0) ∧
    cbeginIt base = beginIt base ∧
    cendIt base size = endIt base size ∧
    beginIt none = none ∧ endIt none 0 = none := by
  refine ⟨?_, rfl, rfl, rfl, rfl⟩
  constructor
  · intro he
    by_contra hs
    obtain ⟨a, ha⟩ := Option.isSome_iff_exists.mp (h hs)
    subst ha
    simp only [beginIt, endIt, hs, if_false, Option.map_some'] at he
    have : a + size = a := by
      simpa using he.symm
    omega
  · intro hs
    simp [endIt, hs]

/-- Witness for C10 at a vector with buffer address 4 and size 2. -/
theorem begin_end_iterators_witness :
    (beginIt (some 4) = endIt (some 4) 2 ↔ (2 : Nat) = 0) ∧
    cbeginIt (some 4) = beginIt (some 4) ∧
    cendIt (some 4) 2 = endIt (some 4) 2 ∧
    beginIt none = none ∧ endIt none 0 = none :=
  begin_end_iterators (some 4) 2 (fun _ => by decide)

/-- Claim C6 (confirmed): starting from a default-constructed vector, after
`k ≥ 1` consecutive appends the capacity is the least value of the doubling
sequence 1, 2, 4, 8, … that is at least `k`; and an append on a full vector
(`size = cap`) grows capacity 0 to 1 and otherwise doubles it. -/
theorem growth_doubling_capacity (vals : Nat → α) (k : Nat) (hk : 1 ≤ k) :
    (∃ i, (appendSeq vals k).cap = doubledFrom1 i) ∧
    k ≤ (appendSeq vals k).cap ∧
    (∀ j, k ≤ doubledFrom1 j → (appendSeq vals k).cap ≤ doubledFrom1 j) ∧
    (∀ (v : VecL α) (x : α), v.size = v.cap →
      (emplaceBackL v x).1.cap = if v.cap = 0 then 1 else 2 * v.cap) := by
  obtain ⟨h1, h2, hm⟩ := appendSeq_cap_bounds vals k hk
  refine ⟨hm, h1, least_doubling hm h1 h2, ?_⟩
  intro v x hfull
  have hnot : ¬ v.size < v.cap := by omega
  simp only [emplaceBackL, if_neg hnot, hfull]
  by_cases hc : v.cap = 0
  · simp [hc]
  · simp [hc]; omega

/-- Claim C4 (counterexample): for an element type whose move constructor may
throw but which is copy-constructible (`Traits ⟨false, true⟩`, a type with
move operations), the spare-capacity branch of `Emplace` on a vector of size
2, inserting at offset 0, performs no copy construction (the last element is
move-constructed into the one-past-end slot) and performs move assignments
for the shift — contradicting "constructing a copy of the current last
element" and "moving if safe, else copying". -/
theorem emplace_spare_strategy_counterexample :
    ¬ claimC4Prediction ⟨false, true⟩ (emplaceSpareOps true true 2 0) := by
  simp only [claimC4Prediction]
  decide

/-- Claim C4 (amended): with spare capacity and an insertion position
strictly before end, `Emplace` move-constructs the current last element into
the one-past-end slot (copy-constructing only if `T` has no move
constructor), shifts `[position, end-1)` one slot right by move assignment
(copy assignment only if `T` has no move assignment, with no nothrow-trait
test), and move-assigns a freshly constructed value into `position`; the
resulting buffer holds the original sequence with the value inserted at
`position`. -/
theorem emplace_spare_amended (d : α) (elems : List α) (p : Nat) (x : α)
    (h : p < elems.length) :
    emplaceSpareL d elems p x = elems.take p ++ x :: elems.drop p ∧
    emplaceSpareOps true true elems.length p =
      { copyCtor := 0, moveCtor := 1, copyAssign := 0,
        moveAssign := (elems.length - 1 - p) + 1, otherCtor := 1, dtor := 1 } ∧
    emplaceSpareOps false false elems.length p =
      { copyCtor := 1, moveCtor := 0,
        copyAssign := (elems.length - 1 - p) + 1, moveAssign := 0,
        otherCtor := 1, dtor := 1 } ∧
    (∀ v : VecL α, v.elems = elems → v.size < v.cap →
      emplaceL d v p x = ⟨v.cap, emplaceSpareL d v.elems p x⟩) := by
  refine ⟨emplaceSpareL_eq d elems p x h, rfl, rfl, ?_⟩
  intro v hv hcap
  have hpe : ¬ p = v.size := by
    rw [VecL.size, hv]; omega
  simp only [emplaceL, if_neg hpe, if_pos hcap]

/-- Witness for C4's amended claim: inserting 5 at offset 0 of `[10, 20]`. -/
theorem emplace_spare_amended_witness :
    emplaceSpareL 0 [10, 20] 0 5 = [10, 20].take 0 ++ 5 :: [10, 20].drop 0 ∧
    emplaceSpareOps true true ([10, 20] : List Nat).length 0 =
      { copyCtor := 0, moveCtor := 1, copyAssign := 0,
        moveAssign := (([10, 20] : List Nat).length - 1 - 0) + 1,
        otherCtor := 1, dtor := 1 } ∧
    emplaceSpareOps false false ([10, 20] : List Nat).length 0 =
      { copyCtor := 1, moveCtor := 0,
        copyAssign := (([10, 20] : List Nat).length - 1 - 0) + 1, moveAssign := 0,
        otherCtor := 1, dtor := 1 } ∧
    (∀ v : VecL Nat, v.elems = [10, 20] → v.size < v.cap →
      emplaceL 0 v 0 5 = ⟨v.cap, emplaceSpareL 0 v.elems 0 5⟩) :=
  emplace_spare_amended 0 [10, 20] 0 5 (by decide)

/-- Claim C7 (code bug): the sequence `Vector()`, `PushBack(1)`,
`PushBack(2)`, `Erase(begin())` — all public operations — leaves a vector of
size 1 and capacity 2 whose slot at index 1 (inside `[size, capacity)`)
still holds a constructed, moved-from element rather than uninitialized
storage: `Erase` never destroys the old last element. -/
theorem erase_leaves_constructed_slot_beyond_size :
    (eraseS 0 (emplaceBackS 0 (emplaceBackS 0 (⟨[], 0⟩ : VecS Nat) 1) 2) 0).size = 1 ∧
    (eraseS 0 (emplaceBackS 0 (emplaceBackS 0 (⟨[], 0⟩ : VecS Nat) 1) 2) 0).capacity = 2 ∧
    (eraseS 0 (emplaceBackS 0 (emplaceBackS 0 (⟨[], 0⟩ : VecS Nat) 1) 2) 0).data
      = [Slot.live 2, Slot.moved] ∧
    Slot.moved ≠ (Slot.raw : Slot Nat) := by
  refine ⟨rfl, rfl, rfl, by decide⟩

/-- Witness for C6 at `k = 5` appends: the capacity is 8, the least doubling
value that is at least 5. -/
theorem growth_doubling_capacity_witness :
    (∃ i, (appendSeq (fun i => i) 5).cap = doubledFrom1 i) ∧
    5 ≤ (appendSeq (fun i => i) 5).cap ∧
    (∀ j, 5 ≤ doubledFrom1 j → (appendSeq (fun i => i) 5).cap ≤ doubledFrom1 j) ∧
    (∀ (v : VecL Nat) (x : Nat), v.size = v.cap →
      (emplaceBackL v x).1.cap = if v.cap = 0 then 1 else 2 * v.cap) :=
  growth_doubling_capacity (fun i => i) 5 (by decide)

/-- Claim C8 (confirmed): inserting a value at any valid position
`p ≤ size` and then erasing at the same position restores the original
element sequence (same size, same values, same order). -/
theorem insert_then_erase_restores (d : α) (v : VecL α) (p : Nat) (x : α)
    (h : p ≤ v.size) :
    (eraseL (emplaceL d v p x) p).elems = v.elems ∧
    (eraseL (emplaceL d v p x) p).size = v.size := by
  have hsv : v.size = v.elems.length := rfl
  have hins : (emplaceL d v p x).elems = v.elems.take p ++ x :: v.elems.drop p := by
    by_cases hpe : p = v.size
    · simp only [emplaceL, if_pos hpe]
      have hb : (emplaceBackL v x).1.elems = v.elems ++ [x] := by
        by_cases hc : v.size < v.cap <;> simp [emplaceBackL, hc]
      rw [hb, List.take_of_length_le (by omega), List.drop_eq_nil_of_le (by omega)]
    · have hlt : p < v.size := by omega
      simp only [emplaceL, if_neg hpe]
      by_cases hc : v.size < v.cap
      · rw [if_pos hc]
        exact emplaceSpareL_eq d v.elems p x (by omega)
      · rw [if_neg hc]
  have htklen : (v.elems.take p).length = p := by
    rw [List.length_take]; omega
  have key : (v.elems.take p ++ x :: v.elems.drop p).take p ++
      (v.elems.take p ++ x :: v.elems.drop p).drop (p + 1) = v.elems := by
    rw [List.append_cons]
    rw [List.drop_left' (by simp [htklen])]
    conv_lhs => rw [List.append_assoc]
    rw [List.take_left' htklen]
    exact List.take_append_drop p v.elems
  have helems : (eraseL (emplaceL d v p x) p).elems = v.elems := by
    simp only [eraseL]
    rw [hins]
    exact key
  refine ⟨helems, ?_⟩
  simp only [VecL.size]
  rw [helems]

/-- Witness for C8: inserting 7 at position 1 of `[10, 20]` (capacity 3) and
erasing at position 1 restores `[10, 20]`. -/
theorem insert_then_erase_restores_witness :
    (eraseL (emplaceL 0 (⟨3, [10, 20]⟩ : VecL Nat) 1 7) 1).elems
      = (⟨3, [10, 20]⟩ : VecL Nat).elems ∧
    (eraseL (emplaceL 0 (⟨3, [10, 20]⟩ : VecL Nat) 1 7) 1).size
      = (⟨3, [10, 20]⟩ : VecL Nat).size :=
  insert_then_erase_restores 0 ⟨3, [10, 20]⟩ 1 7 (by decide)

end AdvancedVector
